import Mathlib

/-!
Verification of the EzArgs command-line parsing library (single header
`EzArgs.h`, second iteration in the repository).  Strings are modelled as
`List Char`; the callback-based error reporting of the C++ code is modelled
by an explicit log of reported error kinds together with the `interrupted`
flag set by `StopParsing`.  Every definition mirrors the corresponding C++
function; the comments name the source entity.
-/

namespace EzArgs

/-- The string model: a C++ `std::string` is a list of characters. -/
abbrev Str := List Char

/-- Convenience conversion from Lean string literals to the string model. -/
def str (s : String) : Str := s.toList

/-- `enum class Error` of EzArgs.h (second iteration). -/
inductive Error where
  | None
  | ExpectedShortAlias
  | ExpectedLongAlias
  | ExpectedAliasIndicator
  | OptionHasNoAliases
  | AliasClash
  | EmptyAlias
  | UnrecognisedAlias
  | ExpectedParameter
  | UnexpectedParameter
  | NullOptionAction
  | ParameterParseError
  | InvalidParameterEnumValue
  | RuleExpectedAtLeastOneOf
  | RuleOptionsMutuallyExclusive
  | RuleExpectedAllOrNoneOf
deriving DecidableEq, Repr

/-- `enum class Parameter` of EzArgs.h: the arity of an option's action. -/
inductive Parameter where
  | None
  | Optional
  | Required
deriving DecidableEq, Repr

/-- `using ParsedArg = std::tuple<int, std::string, std::optional<std::string>>`:
position in the raw token vector, alias, optional parameter. -/
abbrev ParsedArg := Nat × Str × Option Str

/-!  `ParseAliases` (EzArgs.h, private helper): splits the comma separated
alias string.  The C++ is an index based loop

    while (index < aliases.size()) {
        auto last = aliases.find_first_of(',', index);
        std::string segment = aliases.substr(index, last - index);
        index += segment.size() + 1;
        segments.push_back(segment);
    }

Each iteration takes the segment up to (excluding) the next comma
(`takeUntilComma`) and resumes just after that comma (`dropPastComma`).
The loop is modelled with a fuel argument equal to the string length, which
suffices because every iteration consumes at least one character. -/

/-- The segment scanned by one iteration of the `ParseAliases` loop:
characters up to, and excluding, the first comma. -/
def takeUntilComma : Str → Str
  | [] => []
  | c :: cs => if c = ',' then [] else c :: takeUntilComma cs

/-- The rest of the alias string after the first comma (the loop resumes at
`index + segment.size() + 1`); empty when there is no comma. -/
def dropPastComma : Str → Str
  | [] => []
  | c :: cs => if c = ',' then cs else dropPastComma cs

/-- The `ParseAliases` loop with explicit fuel; the loop body only runs
while the remaining string is nonempty. -/
def parseAliasesFuel : Nat → Str → List Str
  | _, [] => []
  | 0, _ :: _ => []
  | n + 1, c :: cs =>
      takeUntilComma (c :: cs) :: parseAliasesFuel n (dropPastComma (c :: cs))

/-- `ParseAliases` of EzArgs.h: the fuel `s.length` is enough for the loop
to run to completion. -/
def ParseAliases (s : Str) : List Str := parseAliasesFuel s.length s

/-- Modelled from the spec: the purely positional comma splitter the spec
describes ("segment count = comma count + 1, preserving empties").  Used
only to compare the source's `ParseAliases` against the spec's words. -/
def splitOnComma : Str → List Str
  | [] => [[]]
  | c :: cs =>
      if c = ',' then [] :: splitOnComma cs
      else
        match splitOnComma cs with
        | [] => [[c]]
        | seg :: rest => (c :: seg) :: rest

/-- Drops a final empty segment, when there is one, from a segment list. -/
def trimTrailingEmpty (l : List Str) : List Str :=
  if l.getLast? = some ([] : Str) then l.dropLast else l

/-- Number of commas in a string. -/
def commaCount : Str → Nat
  | [] => 0
  | c :: cs => (if c = ',' then 1 else 0) + commaCount cs

/-!  The `OptionAction` class of EzArgs.h.  An option action mutating the
caller's captured storage of type `σ` is modelled as a state transformer
returning the new storage and the returned `Error`.  The class stores the
arity tag (`paramRequirements_`) together with the normalised action
(`action_ : OptionActionOptionalParam`); a null `std::function` is `none`. -/

structure OptAction (σ : Type) where
  paramRequirements : Parameter
  action : Option (Option Str → σ → σ × Error)

/-- `OptionAction(OptionActionNoParam&&)`: records `Parameter::None` and, for
a non-null action, wraps it so that a present parameter yields
`Error::UnexpectedParameter` and an absent one invokes the action. -/
def mkNoParamAction {σ : Type} (optionAction : Option (σ → σ × Error)) :
    OptAction σ where
  paramRequirements := Parameter.None
  action := optionAction.map (fun act param s =>
    match param with
    | some _ => (s, Error.UnexpectedParameter)
    | none => act s)

/-- `OptionAction(OptionActionOptionalParam&&)`: records
`Parameter::Optional` and stores the action unchanged. -/
def mkOptionalParamAction {σ : Type}
    (optionAction : Option (Option Str → σ → σ × Error)) : OptAction σ where
  paramRequirements := Parameter.Optional
  action := optionAction

/-- `OptionAction(OptionActionRequiredParam&&)`: records
`Parameter::Required` and, for a non-null action, wraps it so that an absent
parameter yields `Error::ExpectedParameter` and a present one invokes the
action on the parameter's value. -/
def mkRequiredParamAction {σ : Type}
    (optionAction : Option (Str → σ → σ × Error)) : OptAction σ where
  paramRequirements := Parameter.Required
  action := optionAction.map (fun act param s =>
    match param with
    | some p => act p s
    | none => (s, Error.ExpectedParameter))

/-- `struct Option` of EzArgs.h: aliases string, action, help text. -/
structure Opt (σ : Type) where
  aliases : Str
  onParse : OptAction σ
  helpText : Str

/-- The registry owned by `ArgParser`: `options_` and `aliasMap_`
(`std::map<std::string, unsigned>`, modelled as an association list whose
keys are unique because `SetOptions` only inserts unseen aliases). -/
structure Registry (σ : Type) where
  options : List (Opt σ)
  aliasMap : List (Str × Nat)

/-- Lookup in the alias map: `aliasMap_.count(alias) > 0` /
`aliasMap_.at(alias)`. -/
def lookupA : List (Str × Nat) → Str → Option Nat
  | [], _ => none
  | (a, i) :: rest, k => if a = k then some i else lookupA rest k

/-- The inner loop of `ArgParser::SetOptions` over the parsed aliases of one
option: a clash with an already-inserted alias reports `Error::AliasClash`,
an empty segment reports `Error::EmptyAlias`, both stop the whole
validation (`success = false; break`); otherwise `aliasMap_[alias] =
currentIndex`. -/
def aliasInsertLoop (i : Nat) :
    List Str → List (Str × Nat) → Option Error × List (Str × Nat)
  | [], amap => (none, amap)
  | a :: rest, amap =>
      if (lookupA amap a).isSome then (some Error.AliasClash, amap)
      else if a = [] then (some Error.EmptyAlias, amap)
      else aliasInsertLoop i rest (amap ++ [(a, i)])

/-- The outer loop of `ArgParser::SetOptions`: per option it checks, in
order, `aliases_.empty()` (`Error::OptionHasNoAliases`), a null action
(`Error::NullOptionAction`), then runs the alias loop.  The loop is guarded
by `success`, so the first reported problem ends the whole validation.  The
C++ also checks `GetParameterRequirements()` against the three enum values
(`Error::InvalidParameterEnumValue`); that check cannot fire in this model
because `Parameter` is a total enumeration, and is therefore omitted. -/
def setOptionsLoop {σ : Type} :
    List (Opt σ) → Nat → List (Str × Nat) → Option Error × List (Str × Nat)
  | [], _, amap => (none, amap)
  | o :: rest, i, amap =>
      if o.aliases = [] then (some Error.OptionHasNoAliases, amap)
      else
        match o.onParse.action with
        | none => (some Error.NullOptionAction, amap)
        | some _ =>
            match aliasInsertLoop i (ParseAliases o.aliases) amap with
            | (some e, amap2) => (some e, amap2)
            | (none, amap2) => setOptionsLoop rest (i + 1) amap2

/-- `ArgParser::SetOptions`: the previous registry is discarded immediately
(`options_ = std::move(options); aliasMap_.clear();`); on any validation
failure the new state is cleared as well (`options_.clear();
aliasMap_.clear();`).  Returns `(success, new registry, reported errors)`;
the `reg` argument models the `this` object's previous registry and is
overwritten unconditionally. -/
def SetOptions {σ : Type} (reg : Registry σ) (opts : List (Opt σ)) :
    Bool × Registry σ × List Error :=
  match reg, setOptionsLoop opts 0 [] with
  | _, (none, amap) => (true, { options := opts, aliasMap := amap }, [])
  | _, (some e, _) => (false, { options := [], aliasMap := [] }, [e])

/-!  The default `argsParser_` lambda installed by the `ArgParser`
constructor: the POSIX-style tokenizer.  It walks `argv` from index 1,
producing `ParsedArg` records and, after one of the two `break`s, collecting
every remaining token (from the current index on) as a positional
argument. -/

/-- `std::isalpha` under the default C locale: ASCII letters only. -/
def isAlphaChar (c : Char) : Bool :=
  if ('a' ≤ c ∧ c ≤ 'z') ∨ ('A' ≤ c ∧ c ≤ 'Z') then true else false

/-- The alias part of a long token's body: `arg.substr(2, aliasLast - 2)`
where `aliasLast = arg.find_first_of('=')`. -/
def takeUntilEq : Str → Str
  | [] => []
  | c :: cs => if c = '=' then [] else c :: takeUntilEq cs

/-- The parameter of a long token: the substring after the first `=`, when
one exists (`param = arg.substr(aliasLast + 1)`), else disengaged. -/
def paramAfterEq : Str → Option Str
  | [] => none
  | c :: cs => if c = '=' then some cs else paramAfterEq cs

/-- `std::get<2>(argsAndParams.back()) = value`: replaces the parameter of
the last produced `ParsedArg`.  The C++ calls `back()` on the vector; on an
empty vector that call is undefined behaviour, modelled here as a no-op
(never reached on the inputs the theorems below consider). -/
def attachParamToLast (p : Str) : List ParsedArg → List ParsedArg
  | [] => []
  | [(i, a, _)] => [(i, a, some p)]
  | x :: y :: rest => x :: attachParamToLast p (y :: rest)

/-- The inner character loop of the short-alias branch, over
`arg.substr(1)`: a `=` attaches the remaining suffix to the most recently
produced `ParsedArg` and breaks; an alphabetic character produces its own
`ParsedArg` at the token's position; anything else reports
`Error::ExpectedShortAlias` and continues. -/
def shortGo (i : Nat) :
    Str → List ParsedArg → List Error → List ParsedArg × List Error
  | [], args, errs => (args, errs)
  | c :: rest, args, errs =>
      if c = '=' then (attachParamToLast rest args, errs)
      else if isAlphaChar c then
        shortGo i rest (args ++ [(i, [c], none)]) errs
      else shortGo i rest args (errs ++ [Error.ExpectedShortAlias])

/-- The effect of one non-breaking iteration of the tokenizer loop on the
accumulated `ParsedArg` records and reported errors, for the token `t` at
position `i`.  The branches mirror the C++ in order: long token
(`--` prefix, length > 2), short token (`-` prefix: empty or `=`-leading
remainder is `Error::ExpectedShortAlias`, otherwise the character loop),
bare token (fills the pending parameter slot of the last record, else
`Error::ExpectedAliasIndicator`). -/
def stepTok (t : Str) (i : Nat) (args : List ParsedArg) (errs : List Error) :
    List ParsedArg × List Error :=
  if t.take 2 = ['-', '-'] then
    if t.length = 2 then (args, errs)
    else (args ++ [(i, takeUntilEq (t.drop 2), paramAfterEq (t.drop 2))], errs)
  else if t.take 1 = ['-'] then
    if t.length = 1 ∨ (t.drop 1).head? = some '=' then
      (args, errs ++ [Error.ExpectedShortAlias])
    else shortGo i (t.drop 1) args errs
  else
    match args.getLast? with
    | some (_, _, none) => (attachParamToLast t args, errs)
    | some (_, _, some _) => (args, errs ++ [Error.ExpectedAliasIndicator])
    | none => (args, errs ++ [Error.ExpectedAliasIndicator])

/-- The tokenizer loop.  Two tokens break the scan, returning the tokens
from the current index on as positional arguments: the bare `--` terminator,
and a bare first token (`index == 1`) while no `ParsedArg` has been
produced.  Every other token is handled by `stepTok` and the scan
continues at the next index. -/
def tokGo :
    List Str → Nat → List ParsedArg → List Error →
      List ParsedArg × List Str × List Error
  | [], _, args, errs => (args, [], errs)
  | t :: ts, i, args, errs =>
      if t = ['-', '-'] then (args, t :: ts, errs)
      else if t.take 1 ≠ ['-'] ∧ args = [] ∧ i = 1 then (args, t :: ts, errs)
      else
        let (a2, e2) := stepTok t i args errs
        tokGo ts (i + 1) a2 e2

/-- The default `argsParser_`: `argv[0]` is the program name; scanning
starts at index 1. -/
def tokenize : List Str → List ParsedArg × List Str × List Error
  | [] => ([], [], [])
  | _ :: rest => tokGo rest 1 [] []

/-!  Rules, error reporting and dispatch (`ArgParser::ParseArgs`). -/

/-- A `Rule` receives the complete `ParsedArg` list and the error handler;
it is modelled as returning its verdict together with the list of errors it
reports through the handler. -/
abbrev Rule := List ParsedArg → Bool × List Error

/-- One `ParsedArg`'s contribution to `GetArgIndexesOf`: a whole-string
match of the alias field against the rule's alias set pushes the arg's
position once; otherwise every matching comma-separated segment pushes
it. -/
def argIndexesOfOne (ruleAliases : List Str) (pa : ParsedArg) : List Nat :=
  if pa.2.1 ∈ ruleAliases then [pa.1]
  else
    (ParseAliases pa.2.1).foldl
      (fun acc seg => if seg ∈ ruleAliases then acc ++ [pa.1] else acc) []

/-- `GetArgIndexesOf` of EzArgs.h. -/
def GetArgIndexesOf (ruleAliases : List Str) (parsedArgs : List ParsedArg) :
    List Nat :=
  parsedArgs.foldl (fun acc pa => acc ++ argIndexesOfOne ruleAliases pa) []

/-- `RuleMutuallyExclusive`: fails, reporting
`Error::RuleOptionsMutuallyExclusive` once, when more than one parsed arg
matches the rule's alias set. -/
def RuleMutuallyExclusive (ruleAliases : List Str) : Rule :=
  fun parsedArgs =>
    if 1 < (GetArgIndexesOf ruleAliases parsedArgs).length then
      (false, [Error.RuleOptionsMutuallyExclusive])
    else (true, [])

/-- The observable state of one `ParseArgs` call: the caller-owned storage
mutated by option actions, the sequence of errors passed to `errorFunc_`,
and the `interrupted_` flag. -/
structure PState (σ : Type) where
  user : σ
  log : List Error
  interrupted : Bool
deriving DecidableEq, Repr

/-- One call of `errorFunc_`: the error is recorded; the default handler
additionally calls `StopParsing()`, a purely recording custom handler does
not — `halt` selects between the two. -/
def report {σ : Type} (halt : Bool) (e : Error) (st : PState σ) : PState σ :=
  { st with log := st.log ++ [e], interrupted := st.interrupted || halt }

/-- The rule loop of `ArgParser::ParseArgs`: every rule runs (no break);
the errors a rule reports go through `errorFunc_`, and a failing rule makes
`ParseArgs` itself call `StopParsing()`. -/
def applyRules {σ : Type} (halt : Bool) (parsed : List ParsedArg) :
    List Rule → PState σ → PState σ
  | [], st => st
  | r :: rs, st =>
      let v := r parsed
      let st1 := v.2.foldl (fun s e => report halt e s) st
      applyRules halt parsed rs
        (if v.1 then st1 else { st1 with interrupted := true })

/-- The option every index is mapped to in the (unreachable) out-of-range
case of `options_.at(aliasIndex)`. -/
def nullOpt (σ : Type) : Opt σ := ⟨[], ⟨Parameter.None, none⟩, []⟩

/-- The dispatch loop of `ArgParser::ParseArgs`: stops when `interrupted_`;
an unknown alias reports `Error::UnrecognisedAlias` and calls
`StopParsing()`; a known alias invokes the option's normalised action on
the optional parameter, and any non-`None` result is reported followed by
`StopParsing()` — in both error cases `StopParsing()` is invoked by the
dispatcher itself, regardless of the installed handler.  A null stored
action would be undefined behaviour in the source (calling a null
`std::function`) and is modelled as a no-op; `SetOptions` never installs
one. -/
def dispatchGo {σ : Type} (halt : Bool) (reg : Registry σ) :
    List ParsedArg → PState σ → PState σ
  | [], st => st
  | (_, al, param) :: rest, st =>
      if st.interrupted then st
      else
        match lookupA reg.aliasMap al with
        | some ai =>
            match (reg.options.getD ai (nullOpt σ)).onParse.action with
            | none => st
            | some act =>
                let r := act param st.user
                if r.2 = Error.None then
                  dispatchGo halt reg rest { st with user := r.1 }
                else
                  dispatchGo halt reg rest
                    { report halt r.2 { st with user := r.1 } with
                        interrupted := true }
        | none =>
            dispatchGo halt reg rest
              { report halt Error.UnrecognisedAlias st with
                  interrupted := true }

/-- `ArgParser::ParseArgs`: resets `interrupted_`, tokenizes (the
tokenizer's error reports happen first), runs every rule, dispatches, and
returns the positional arguments.  `halt` is the installed handler's
policy, `u` the initial caller-owned storage. -/
def ParseArgs {σ : Type} (halt : Bool) (reg : Registry σ) (rules : List Rule)
    (argv : List Str) (u : σ) : PState σ × List Str :=
  let t := tokenize argv
  let st0 : PState σ := { user := u, log := [], interrupted := false }
  let st1 := t.2.2.foldl (fun s e => report halt e s) st0
  let st2 := applyRules halt t.1 rules st1
  (dispatchGo halt reg t.1 st2, t.2.1)

/-!  The parameter parsing helpers (`GetDefaultParser` and the
`OptionAction` helper factories). -/

/-- The generic `GetDefaultParser<T>`: `std::stringstream` extraction into
a temporary, assigned to `valueOut` only when extraction succeeded and
consumed the whole string.  The extraction itself is type specific and is
modelled by `extract`, which returns `some` exactly in that success case;
on failure the parser returns `Error::ParameterParseError` and leaves the
value untouched. -/
def GetDefaultParser {T : Type} (extract : Str → Option T) :
    Str → T → T × Error :=
  fun param v =>
    match extract param with
    | some temp => (temp, Error.None)
    | none => (v, Error.ParameterParseError)

/-- `std::tolower` under the default C locale: ASCII upper case letters
map to lower case. -/
def toLowerChar (c : Char) : Char :=
  if 'A' ≤ c ∧ c ≤ 'Z' then Char.ofNat (c.toNat + 32) else c

/-- The `GetDefaultParser<bool>` specialisation: lower-cases the parameter,
accepts true/y/yes and false/n/no, otherwise `Error::ParameterParseError`
without touching the value. -/
def GetDefaultBoolParser : Str → Bool → Bool × Error :=
  fun param v =>
    let s := param.map toLowerChar
    if s = str "true" ∨ s = str "y" ∨ s = str "yes" then (true, Error.None)
    else if s = str "false" ∨ s = str "n" ∨ s = str "no" then
      (false, Error.None)
    else (v, Error.ParameterParseError)

/-- The `GetDefaultParser<std::string>` specialisation: always succeeds. -/
def GetDefaultStringParser : Str → Str → Str × Error :=
  fun param _ => (param, Error.None)

/-- `SetValue(T&, parser)`: a required-parameter action passing the bound
variable directly to the parser. -/
def SetValue {T : Type} (parser : Str → T → T × Error) :
    Str → T → T × Error :=
  fun argValue v => parser argValue v

/-- `SetValue(T&, defaultValue, parser)`: an optional-parameter action; an
absent parameter sets the default, a present one is passed with the bound
variable directly to the parser. -/
def SetValueWithDefault {T : Type} (defaultValue : T)
    (parser : Str → T → T × Error) : Option Str → T → T × Error :=
  fun param v =>
    match param with
    | none => (defaultValue, Error.None)
    | some s => parser s v

/-- `SetOptionalValue(std::optional<T>&, parser)`: an optional-parameter
action; an absent parameter disengages the optional, a present one is
parsed into a default-constructed temporary (`tempInit` models `T temp;`)
which is committed only on success. -/
def SetOptionalValue {T : Type} (tempInit : T)
    (parser : Str → T → T × Error) : Option Str → Option T → Option T × Error :=
  fun param v =>
    match param with
    | none => (none, Error.None)
    | some s =>
        let r := parser s tempInit
        if r.2 = Error.None then (some r.1, r.2) else (v, r.2)

/-!  Concrete options, registries and rules used by the witness and
counterexample theorems below. -/

/-- A valid do-nothing no-parameter action on a `Unit` storage. -/
def unitNoOpAction : Option (Unit → Unit × Error) :=
  some fun s => (s, Error.None)

/-- A valid option with single alias "a". -/
def okOptA : Opt Unit := ⟨str "a", mkNoParamAction unitNoOpAction, []⟩

/-- An invalid option: empty alias string, valid action. -/
def badOptNoAliases : Opt Unit := ⟨[], mkNoParamAction unitNoOpAction, []⟩

/-- An option whose single alias contains a space character. -/
def spacedOpt : Opt Unit := ⟨str "Hel p", mkNoParamAction unitNoOpAction, []⟩

/-- The registry obtained by installing `okOptA` into a fresh parser. -/
def regA : Registry Unit := (SetOptions ⟨[], []⟩ [okOptA]).2.1

/-- A no-parameter flag option recording its invocation by appending `n`
to the caller's list. -/
def flagOpt (n : Nat) (a : String) : Opt (List Nat) :=
  ⟨str a, mkNoParamAction (some fun s => (s ++ [n], Error.None)), []⟩

/-- A registry with the three flag options x, y, z. -/
def regXYZ : Registry (List Nat) :=
  (SetOptions ⟨[], []⟩ [flagOpt 0 "x", flagOpt 1 "y", flagOpt 2 "z"]).2.1

/-- The rule `MutuallyExclusive({x, y, z})`. -/
def mutexXYZ : Rule := RuleMutuallyExclusive [str "x", str "y", str "z"]

/-- A registry with one arity-None option "n" whose action sets the bound
flag. -/
def regN : Registry Bool :=
  (SetOptions ⟨[], []⟩
    [⟨str "n", mkNoParamAction (some fun _ => (true, Error.None)), []⟩]).2.1

/-!  Supporting lemmas. -/

theorem dropPastComma_length_le : ∀ s : Str, (dropPastComma s).length ≤ s.length := by
  intro s
  induction s with
  | nil => simp [dropPastComma]
  | cons c cs ih =>
      by_cases hc : c = ','
      · simp [dropPastComma, hc]
      · simp only [dropPastComma, if_neg hc]
        exact Nat.le_succ_of_le ih

theorem dropPastComma_cons_length (c : Char) (cs : Str) :
    (dropPastComma (c :: cs)).length ≤ cs.length := by
  by_cases hc : c = ','
  · simp [dropPastComma, hc]
  · simp only [dropPastComma, if_neg hc]
    exact dropPastComma_length_le cs

theorem parseAliasesFuel_congr :
    ∀ n (s : Str), s.length ≤ n → parseAliasesFuel n s = ParseAliases s := by
  intro n
  induction n using Nat.strong_induction_on with
  | _ n ih =>
    intro s hs
    match s with
    | [] => cases n <;> rfl
    | c :: cs =>
        match n with
        | m + 1 =>
            have hcs : cs.length ≤ m := Nat.le_of_succ_le_succ hs
            have hd : (dropPastComma (c :: cs)).length ≤ cs.length :=
              dropPastComma_cons_length c cs
            have h1 : parseAliasesFuel m (dropPastComma (c :: cs)) =
                ParseAliases (dropPastComma (c :: cs)) :=
              ih m (Nat.lt_succ_self m) _ (le_trans hd hcs)
            have h2 : parseAliasesFuel cs.length (dropPastComma (c :: cs)) =
                ParseAliases (dropPastComma (c :: cs)) :=
              ih cs.length (Nat.lt_succ_of_le hcs) _ hd
            show takeUntilComma (c :: cs) ::
                parseAliasesFuel m (dropPastComma (c :: cs)) = ParseAliases (c :: cs)
            rw [h1]
            show _ = parseAliasesFuel (cs.length + 1) (c :: cs)
            show _ = takeUntilComma (c :: cs) ::
                parseAliasesFuel cs.length (dropPastComma (c :: cs))
            rw [h2]

theorem ParseAliases_comma_cons (cs : Str) :
    ParseAliases (',' :: cs) = [] :: ParseAliases cs := by
  show parseAliasesFuel (cs.length + 1) (',' :: cs) = _
  show takeUntilComma (',' :: cs) ::
      parseAliasesFuel cs.length (dropPastComma (',' :: cs)) = _
  simp [takeUntilComma, dropPastComma,
    parseAliasesFuel_congr cs.length cs (le_refl _)]

theorem ParseAliases_cons_of_ne (c : Char) (cs : Str) (hc : c ≠ ',') :
    ParseAliases (c :: cs) =
      (match ParseAliases cs with
       | [] => [[c]]
       | seg :: rest => (c :: seg) :: rest) := by
  have hstep : ParseAliases (c :: cs) =
      (c :: takeUntilComma cs) :: parseAliasesFuel cs.length (dropPastComma cs) := by
    show parseAliasesFuel (cs.length + 1) (c :: cs) = _
    show takeUntilComma (c :: cs) ::
        parseAliasesFuel cs.length (dropPastComma (c :: cs)) = _
    simp only [takeUntilComma, dropPastComma, if_neg hc]
  match cs with
  | [] =>
      rw [hstep]
      rfl
  | d :: ds =>
      have hd : (dropPastComma (d :: ds)).length ≤ ds.length :=
        dropPastComma_cons_length d ds
      have htl : parseAliasesFuel (d :: ds).length (dropPastComma (d :: ds)) =
          ParseAliases (dropPastComma (d :: ds)) :=
        parseAliasesFuel_congr _ _ (le_trans hd (Nat.le_succ ds.length))
      have hcs : ParseAliases (d :: ds) =
          takeUntilComma (d :: ds) :: ParseAliases (dropPastComma (d :: ds)) := by
        show parseAliasesFuel (ds.length + 1) (d :: ds) = _
        show takeUntilComma (d :: ds) ::
            parseAliasesFuel ds.length (dropPastComma (d :: ds)) = _
        rw [parseAliasesFuel_congr ds.length _ hd]
      rw [hstep, htl, hcs]

theorem splitOnComma_ne_nil : ∀ s : Str, splitOnComma s ≠ [] := by
  intro s
  match s with
  | [] => simp [splitOnComma]
  | c :: cs =>
      by_cases hc : c = ','
      · simp [splitOnComma, hc]
      · simp only [splitOnComma, if_neg hc]
        match splitOnComma cs with
        | [] => simp
        | seg :: rest => simp

theorem splitOnComma_singleton :
    ∀ (s : Str) (x : Str), splitOnComma s = [x] → x = s := by
  intro s
  induction s with
  | nil =>
      intro x h
      simp [splitOnComma] at h
      exact h
  | cons c cs ih =>
      intro x h
      by_cases hc : c = ','
      · subst hc
        simp only [splitOnComma, if_pos rfl] at h
        injection h with h1 h2
        exact absurd h2 (splitOnComma_ne_nil cs)
      · simp only [splitOnComma, if_neg hc] at h
        rcases hsp : splitOnComma cs with _ | ⟨seg, rest⟩
        · exact absurd hsp (splitOnComma_ne_nil cs)
        · rw [hsp] at h
          injection h with h1 h2
          have hseg : seg = cs := by
            apply ih
            rw [hsp, h2]
          rw [← h1, hseg]

theorem trimTrailingEmpty_cons (x : Str) (l : List Str) (hl : l ≠ []) :
    trimTrailingEmpty (x :: l) = x :: trimTrailingEmpty l := by
  rcases l with _ | ⟨y, l'⟩
  · exact absurd rfl hl
  · unfold trimTrailingEmpty
    rw [List.getLast?_cons_cons]
    by_cases h : (y :: l').getLast? = some ([] : Str)
    · rw [if_pos h, if_pos h]
      rfl
    · rw [if_neg h, if_neg h]

theorem splitOnComma_comma_cons (cs : Str) :
    splitOnComma (',' :: cs) = [] :: splitOnComma cs := by
  simp [splitOnComma]

theorem splitOnComma_cons_ne (c : Char) (cs seg : Str) (rest : List Str)
    (hc : c ≠ ',') (h : splitOnComma cs = seg :: rest) :
    splitOnComma (c :: cs) = (c :: seg) :: rest := by
  simp [splitOnComma, if_neg hc, h]

theorem splitOnComma_length :
    ∀ s : Str, (splitOnComma s).length = commaCount s + 1 := by
  intro s
  induction s with
  | nil => simp [splitOnComma, commaCount]
  | cons c cs ih =>
      by_cases hc : c = ','
      · subst hc
        simp [splitOnComma, commaCount, ih]
        omega
      · rcases hsp : splitOnComma cs with _ | ⟨seg, rest⟩
        · exact absurd hsp (splitOnComma_ne_nil cs)
        · rw [splitOnComma_cons_ne c cs seg rest hc hsp]
          rw [hsp] at ih
          simp [commaCount, if_neg hc] at ih ⊢
          omega

theorem parseAliases_eq_trim :
    ∀ s : Str, ParseAliases s = trimTrailingEmpty (splitOnComma s) := by
  intro s
  induction s with
  | nil => rfl
  | cons c cs ih =>
      by_cases hc : c = ','
      · subst hc
        rw [ParseAliases_comma_cons, splitOnComma_comma_cons,
          trimTrailingEmpty_cons _ _ (splitOnComma_ne_nil cs), ih]
      · rcases hsp : splitOnComma cs with _ | ⟨seg, rest⟩
        · exact absurd hsp (splitOnComma_ne_nil cs)
        · rw [ParseAliases_cons_of_ne c cs hc,
            splitOnComma_cons_ne c cs seg rest hc hsp, ih, hsp]
          rcases rest with _ | ⟨r0, rs⟩
          · have hseg : seg = cs := splitOnComma_singleton cs seg hsp
            rcases hcs : cs with _ | ⟨d, ds⟩
            · rw [hseg, hcs]
              simp [trimTrailingEmpty]
            · have hne : seg ≠ [] := by
                rw [hseg, hcs]
                simp
              simp [trimTrailingEmpty, hne]
          · rw [trimTrailingEmpty_cons seg (r0 :: rs) (by simp),
              trimTrailingEmpty_cons (c :: seg) (r0 :: rs) (by simp)]

theorem foldl_report_fields {σ : Type} (halt : Bool) :
    ∀ (errs : List Error) (st : PState σ),
      (errs.foldl (fun s e => report halt e s) st).user = st.user ∧
      (errs.foldl (fun s e => report halt e s) st).log = st.log ++ errs ∧
      (errs.foldl (fun s e => report halt e s) st).interrupted =
        (st.interrupted || (halt && !errs.isEmpty)) := by
  intro errs
  induction errs with
  | nil =>
      intro st
      simp
  | cons e rest ih =>
      intro st
      have h := ih (report halt e st)
      refine ⟨?_, ?_, ?_⟩
      · simpa [report] using h.1
      · rw [List.foldl_cons, h.2.1]
        simp [report]
      · rw [List.foldl_cons, h.2.2]
        cases halt <;> cases hi : st.interrupted <;> simp [report, hi]

theorem applyRules_fields {σ : Type} (halt : Bool) (parsed : List ParsedArg) :
    ∀ (rs : List Rule) (st : PState σ),
      (applyRules halt parsed rs st).user = st.user ∧
      (applyRules halt parsed rs st).log =
        st.log ++ (rs.map fun r => (r parsed).2).flatten ∧
      (st.interrupted = true → (applyRules halt parsed rs st).interrupted = true) ∧
      ((∃ r, r ∈ rs ∧ (r parsed).1 = false) →
        (applyRules halt parsed rs st).interrupted = true) := by
  intro rs
  induction rs with
  | nil =>
      intro st
      refine ⟨rfl, by simp [applyRules], fun h => h, ?_⟩
      rintro ⟨r, hr, _⟩
      cases hr
  | cons r rs ih =>
      intro st
      have hf := foldl_report_fields halt (r parsed).2 st
      set st1 := (r parsed).2.foldl (fun s e => report halt e s) st with hst1
      set stN := if (r parsed).1 then st1 else { st1 with interrupted := true }
        with hstN
      have hstep : applyRules halt parsed (r :: rs) st =
          applyRules halt parsed rs stN := rfl
      have hNu : stN.user = st.user := by
        rw [hstN]
        cases hb : (r parsed).1 <;> simp [hf.1]
      have hNl : stN.log = st.log ++ (r parsed).2 := by
        rw [hstN]
        cases hb : (r parsed).1 <;> simp [hf.2.1]
      have hNm : st.interrupted = true → stN.interrupted = true := by
        intro h
        rw [hstN]
        cases hb : (r parsed).1 <;> simp [hf.2.2, h]
      have h := ih stN
      refine ⟨?_, ?_, ?_, ?_⟩
      · rw [hstep, h.1, hNu]
      · rw [hstep, h.2.1, hNl]
        simp [List.append_assoc]
      · intro hi
        rw [hstep]
        exact h.2.2.1 (hNm hi)
      · rintro ⟨r0, hr0, hf0⟩
        rw [hstep]
        rcases List.mem_cons.mp hr0 with he | hm
        · apply h.2.2.1
          rw [hstN]
          subst he
          simp [hf0]
        · exact h.2.2.2 ⟨r0, hm, hf0⟩

theorem dispatchGo_frozen {σ : Type} (halt : Bool) (reg : Registry σ) :
    ∀ (l : List ParsedArg) (u : σ) (lg : List Error),
      dispatchGo halt reg l ⟨u, lg, true⟩ = ⟨u, lg, true⟩ := by
  intro l u lg
  cases l with
  | nil => rfl
  | cons x rest =>
      obtain ⟨i, al, p⟩ := x
      rfl

theorem dispatchGo_cons_active {σ : Type} (halt : Bool) (reg : Registry σ)
    (i : Nat) (al : Str) (p : Option Str) (rest : List ParsedArg) (u : σ)
    (lg : List Error) :
    dispatchGo halt reg ((i, al, p) :: rest) ⟨u, lg, false⟩ =
      (match lookupA reg.aliasMap al with
       | some ai =>
           match (reg.options.getD ai (nullOpt σ)).onParse.action with
           | none => ⟨u, lg, false⟩
           | some act =>
               if (act p u).2 = Error.None then
                 dispatchGo halt reg rest ⟨(act p u).1, lg, false⟩
               else
                 dispatchGo halt reg rest
                   ⟨(act p u).1, lg ++ [(act p u).2], true⟩
       | none =>
           dispatchGo halt reg rest
             ⟨u, lg ++ [Error.UnrecognisedAlias], true⟩) := by
  show (if false = true then _ else _) = _
  rw [if_neg (by simp)]
  rcases lookupA reg.aliasMap al with _ | ai
  · rfl
  · rcases (reg.options.getD ai (nullOpt σ)).onParse.action with _ | act
    · rfl
    · by_cases hr : (act p u).2 = Error.None
      · simp only [hr, if_pos]
        rfl
      · simp only [if_neg hr]
        rfl

theorem dispatchGo_log_extension {σ : Type} (halt : Bool) (reg : Registry σ) :
    ∀ (l : List ParsedArg) (st : PState σ),
      ∃ d, (dispatchGo halt reg l st).log = st.log ++ d ∧ d.length ≤ 1 := by
  intro l
  induction l with
  | nil =>
      intro st
      exact ⟨[], by simp [dispatchGo], by simp⟩
  | cons x rest ih =>
      intro st
      obtain ⟨i, al, p⟩ := x
      obtain ⟨u, lg, intr⟩ := st
      cases intr with
      | true =>
          refine ⟨[], ?_, by simp⟩
          rw [dispatchGo_frozen]
          simp
      | false =>
          rw [dispatchGo_cons_active]
          rcases hl : lookupA reg.aliasMap al with _ | ai
          · simp only [hl]
            rw [dispatchGo_frozen]
            exact ⟨[Error.UnrecognisedAlias], rfl, by simp⟩
          · simp only [hl]
            rcases ha : (reg.options.getD ai (nullOpt σ)).onParse.action with _ | act
            · simp only [ha]
              exact ⟨[], by simp, by simp⟩
            · simp only [ha]
              by_cases hr : (act p u).2 = Error.None
              · rw [if_pos hr]
                obtain ⟨d, hd1, hd2⟩ := ih ⟨(act p u).1, lg, false⟩
                exact ⟨d, hd1, hd2⟩
              · rw [if_neg hr]
                rw [dispatchGo_frozen]
                exact ⟨[(act p u).2], rfl, by simp⟩

theorem attachParamToLast_append (p : Str) :
    ∀ (xs : List ParsedArg) (i : Nat) (a : Str) (q : Option Str),
      attachParamToLast p (xs ++ [(i, a, q)]) = xs ++ [(i, a, some p)] := by
  intro xs
  induction xs with
  | nil =>
      intro i a q
      rfl
  | cons x xs ih =>
      intro i a q
      rcases hxe : xs ++ [(i, a, q)] with _ | ⟨y, ys⟩
      · exact absurd hxe (by simp)
      · show attachParamToLast p (x :: (xs ++ [(i, a, q)])) = _
        rw [hxe]
        show x :: attachParamToLast p (y :: ys) = _
        rw [← hxe, ih i a q]
        rfl

theorem isAlphaChar_ne_eqch {c : Char} (h : isAlphaChar c = true) : c ≠ '=' := by
  intro he
  subst he
  exact absurd h (by decide)

theorem isAlphaChar_ne_dash {c : Char} (h : isAlphaChar c = true) : c ≠ '-' := by
  intro he
  subst he
  exact absurd h (by decide)

theorem shortGo_all_alpha :
    ∀ (alphas : Str) (i : Nat) (args : List ParsedArg) (errs : List Error),
      (∀ x ∈ alphas, isAlphaChar x = true) →
      shortGo i alphas args errs =
        (args ++ alphas.map (fun x => (i, ([x] : Str), none)), errs) := by
  intro alphas
  induction alphas with
  | nil =>
      intro i args errs _
      simp [shortGo]
  | cons x xs ih =>
      intro i args errs h
      have hx : isAlphaChar x = true := h x (List.mem_cons_self x xs)
      have hxs : ∀ y ∈ xs, isAlphaChar y = true :=
        fun y hy => h y (List.mem_cons_of_mem x hy)
      show (if x = '=' then _ else if isAlphaChar x then _ else _) = _
      rw [if_neg (isAlphaChar_ne_eqch hx), if_pos (by rw [hx])]
      rw [ih i (args ++ [(i, [x], none)]) errs hxs]
      simp

theorem shortGo_alpha_then_eq :
    ∀ (front : Str) (c : Char) (suffix : Str) (i : Nat)
      (args : List ParsedArg) (errs : List Error),
      (∀ x ∈ front, isAlphaChar x = true) → isAlphaChar c = true →
      shortGo i (front ++ c :: '=' :: suffix) args errs =
        (args ++ front.map (fun x => (i, ([x] : Str), none)) ++
          [(i, [c], some suffix)], errs) := by
  intro front
  induction front with
  | nil =>
      intro c suffix i args errs _ hc
      show (if c = '=' then _ else if isAlphaChar c then _ else _) = _
      rw [if_neg (isAlphaChar_ne_eqch hc), if_pos (by rw [hc])]
      show (if '=' = '=' then
          (attachParamToLast suffix (args ++ [(i, [c], none)]), errs)
        else _) = _
      rw [if_pos rfl, attachParamToLast_append suffix args i [c] none]
      simp
  | cons x xs ih =>
      intro c suffix i args errs h hc
      have hx : isAlphaChar x = true := h x (List.mem_cons_self x xs)
      have hxs : ∀ y ∈ xs, isAlphaChar y = true :=
        fun y hy => h y (List.mem_cons_of_mem x hy)
      show (if x = '=' then _ else if isAlphaChar x then _ else _) = _
      rw [if_neg (isAlphaChar_ne_eqch hx), if_pos (by rw [hx])]
      show shortGo i (xs ++ c :: '=' :: suffix) (args ++ [(i, [x], none)]) errs = _
      rw [ih c suffix i (args ++ [(i, [x], none)]) errs hxs hc]
      simp

theorem tokGo_cons_step (t : Str) (ts : List Str) (i : Nat)
    (args : List ParsedArg) (errs : List Error) (h1 : t ≠ ['-', '-'])
    (h2 : ¬(t.take 1 ≠ ['-'] ∧ args = [] ∧ i = 1)) :
    tokGo (t :: ts) i args errs =
      tokGo ts (i + 1) (stepTok t i args errs).1 (stepTok t i args errs).2 := by
  show (if t = ['-', '-'] then _
        else if t.take 1 ≠ ['-'] ∧ args = [] ∧ i = 1 then _ else _) = _
  rw [if_neg h1, if_neg h2]

theorem stepTok_short (cs : Str) (i : Nat) (args : List ParsedArg)
    (errs : List Error) (hne : cs ≠ [])
    (hhead : ∀ x, cs.head? = some x → isAlphaChar x = true) :
    stepTok ('-' :: cs) i args errs = shortGo i cs args errs := by
  obtain ⟨x, xs, rfl⟩ := List.exists_cons_of_ne_nil hne
  have hx : isAlphaChar x = true := hhead x rfl
  show (if ('-' :: x :: xs).take 2 = ['-', '-'] then _
        else if ('-' :: x :: xs).take 1 = ['-'] then
          if ('-' :: x :: xs).length = 1 ∨
              (('-' :: x :: xs).drop 1).head? = some '=' then _
          else shortGo i (('-' :: x :: xs).drop 1) args errs
        else _) = _
  rw [if_neg (by simp [isAlphaChar_ne_dash hx]), if_pos (by simp),
    if_neg (by simp [isAlphaChar_ne_eqch hx])]
  rfl

theorem tokGo_append_terminator :
    ∀ (pre rest : List Str) (i : Nat) (args : List ParsedArg)
      (errs : List Error), ¬ (['-', '-'] ∈ pre) → 2 ≤ i →
      tokGo (pre ++ ['-', '-'] :: rest) i args errs =
        ((tokGo pre i args errs).1, ['-', '-'] :: rest,
          (tokGo pre i args errs).2.2) ∧
      (tokGo pre i args errs).2.1 = [] := by
  intro pre
  induction pre with
  | nil =>
      intro rest i args errs _ _
      exact ⟨rfl, rfl⟩
  | cons t pre ih =>
      intro rest i args errs hmem hi
      have ht : t ≠ ['-', '-'] := fun he => hmem (he ▸ List.mem_cons_self t pre)
      have hmem2 : ¬ (['-', '-'] ∈ pre) :=
        fun hm => hmem (List.mem_cons_of_mem t hm)
      have h2 : ¬(t.take 1 ≠ ['-'] ∧ args = [] ∧ i = 1) := by
        rintro ⟨_, _, hi1⟩
        omega
      rw [List.cons_append,
        tokGo_cons_step t (pre ++ ['-', '-'] :: rest) i args errs ht h2,
        tokGo_cons_step t pre i args errs ht h2]
      exact ih rest (i + 1) _ _ hmem2 (by omega)

/-!  Claim theorems. -/

/-- C1, counterexample: `SetOptions` does not preserve the previously
installed registry on a failed call.  With alias "a" installed by a
successful call, a second call with one invalid option (empty alias list)
reports a problem, yet afterwards "a" no longer resolves: the registry was
cleared, not restored. -/
theorem setOptions_failure_forgets_old_alias_cex :
    lookupA regA.aliasMap (str "a") = some 0 ∧
    (SetOptions regA [badOptNoAliases]).2.2 ≠ [] ∧
    lookupA (SetOptions regA [badOptNoAliases]).2.1.aliasMap (str "a") =
      none := by
  decide

/-- C1, amended: `SetOptions` is all-or-nothing in the sense that when any
problem is reported the call fails and leaves the registry empty — no alias
resolves afterwards, neither previously installed ones nor candidates — and
the candidate list is installed exactly when no problem was reported. -/
theorem setOptions_failure_clears_registry :
    ∀ (σ : Type) (reg : Registry σ) (opts : List (Opt σ)),
      ((SetOptions reg opts).2.2 ≠ [] →
        (SetOptions reg opts).1 = false ∧
        (SetOptions reg opts).2.1.options = [] ∧
        ∀ a, lookupA (SetOptions reg opts).2.1.aliasMap a = none) ∧
      ((SetOptions reg opts).2.2 = [] →
        (SetOptions reg opts).1 = true ∧
        (SetOptions reg opts).2.1.options = opts) := by
  intro σ reg opts
  rcases h : setOptionsLoop opts 0 [] with ⟨o, amap⟩
  cases o <;> simp [SetOptions, h, lookupA]

/-- C1, witness for the amended theorem at a concrete failing call. -/
theorem setOptions_failure_clears_registry_witness :
    (SetOptions regA [badOptNoAliases]).1 = false ∧
    lookupA (SetOptions regA [badOptNoAliases]).2.1.aliasMap (str "a") =
      none := by
  have h := (setOptions_failure_clears_registry Unit regA
    [badOptNoAliases]).1 (by decide)
  exact ⟨h.1, h.2.2 (str "a")⟩

/-- C2, counterexample: comma splitting is not purely positional: the
trailing empty segment is dropped, so ",,," yields three segments, not
comma count + 1 = four, and "a,,b," yields ["a", "", "b"]. -/
theorem parseAliases_trailing_comma_cex :
    ParseAliases (str ",,,") = [[], [], []] ∧
    (ParseAliases (str ",,,")).length ≠ commaCount (str ",,,") + 1 ∧
    ParseAliases (str "a,,b,") = [str "a", [], str "b"] := by
  decide

/-- C2, amended: `ParseAliases` equals the purely positional comma splitter
with a final empty segment removed: leading and doubled commas still yield
empty segments, but a trailing comma's empty segment is dropped and the
empty string yields no segment; the positional splitter itself has segment
count = comma count + 1. -/
theorem parseAliases_positional_except_trailing :
    (∀ s : Str, ParseAliases s = trimTrailingEmpty (splitOnComma s)) ∧
    (∀ s : Str, (splitOnComma s).length = commaCount s + 1) :=
  ⟨parseAliases_eq_trim, splitOnComma_length⟩

/-- C3: the validation loop of `SetOptions` is guarded by `success` and
`break`s at the first problem, so a candidate list with two violations
(two options with empty alias lists) produces exactly one reporter
callback — the repository's own test suite (testMain.cpp, sections "No
Aliases", "Null OptionActions", "Mixed Errors") requires one callback per
violation instead. -/
theorem setOptions_single_report_on_two_violations :
    (SetOptions (⟨[], []⟩ : Registry Unit)
        [badOptNoAliases, badOptNoAliases]).2.2 =
      [Error.OptionHasNoAliases] ∧
    ((SetOptions (⟨[], []⟩ : Registry Unit)
        [badOptNoAliases, badOptNoAliases]).2.2).length = 1 := by
  decide

/-- C4: the second-iteration header has no `SpaceInAlias` error kind and
`SetOptions` performs no whitespace check: an option whose alias "Hel p"
contains a space is accepted with zero reports and the alias is installed —
the repository's test suite (testMain.cpp, sections "Spaces in Aliase(s)")
requires one `SpaceInAlias` report per offending segment instead. -/
theorem setOptions_accepts_whitespace_alias :
    (SetOptions (⟨[], []⟩ : Registry Unit) [spacedOpt]).1 = true ∧
    (SetOptions (⟨[], []⟩ : Registry Unit) [spacedOpt]).2.2 = [] ∧
    lookupA (SetOptions (⟨[], []⟩ : Registry Unit) [spacedOpt]).2.1.aliasMap
      (str "Hel p") = some 0 := by
  decide

/-- C5: on a parse call every installed rule is evaluated against the
complete `ParsedArg` list (the final log contains every rule's reports, in
order), and if any rule fails the dispatch phase is skipped entirely: the
final state is exactly the caller's storage unchanged — so zero option
actions ran — with the tokenizer's and the rules' reports as the only log
entries. -/
theorem rules_all_run_and_block_dispatch :
    ∀ (σ : Type) (halt : Bool) (reg : Registry σ) (rules : List Rule)
      (argv : List Str) (u : σ),
      (∃ r ∈ rules, (r (tokenize argv).1).1 = false) →
      (ParseArgs halt reg rules argv u).1 =
        ⟨u, (tokenize argv).2.2 ++
            (rules.map fun r => (r (tokenize argv).1).2).flatten, true⟩ := by
  intro σ halt reg rules argv u hfail
  show dispatchGo halt reg (tokenize argv).1
      (applyRules halt (tokenize argv).1 rules
        ((tokenize argv).2.2.foldl (fun s e => report halt e s)
          ⟨u, [], false⟩)) = _
  set st1 := ((tokenize argv).2.2).foldl (fun s e => report halt e s)
    (⟨u, [], false⟩ : PState σ) with hst1
  have hf := foldl_report_fields (σ := σ) halt (tokenize argv).2.2
    ⟨u, [], false⟩
  have ha := applyRules_fields halt (tokenize argv).1 rules st1
  have hu : (applyRules halt (tokenize argv).1 rules st1).user = u :=
    ha.1.trans hf.1
  have hl : (applyRules halt (tokenize argv).1 rules st1).log =
      (tokenize argv).2.2 ++
        (rules.map fun r => (r (tokenize argv).1).2).flatten := by
    rw [ha.2.1, hf.2.1]
    simp
  have hint : (applyRules halt (tokenize argv).1 rules st1).interrupted =
      true := ha.2.2.2 hfail
  have hstate : applyRules halt (tokenize argv).1 rules st1 =
      ⟨u, (tokenize argv).2.2 ++
          (rules.map fun r => (r (tokenize argv).1).2).flatten, true⟩ := by
    calc applyRules halt (tokenize argv).1 rules st1 =
        ⟨(applyRules halt (tokenize argv).1 rules st1).user,
          (applyRules halt (tokenize argv).1 rules st1).log,
          (applyRules halt (tokenize argv).1 rules st1).interrupted⟩ := rfl
      _ = _ := by rw [hu, hl, hint]
  rw [hstate, dispatchGo_frozen]

/-- C5, witness: with rule MutuallyExclusive({x, y, z}) and the command
line "-x -y", the call makes exactly one RuleOptionsMutuallyExclusive
report and invokes no option action (the invocation-recording storage stays
empty). -/
theorem rules_all_run_and_block_dispatch_witness :
    (ParseArgs true regXYZ [mutexXYZ] [str "prog", str "-x", str "-y"]
        ([] : List Nat)).1 =
      ⟨[], [Error.RuleOptionsMutuallyExclusive], true⟩ := by
  have h := rules_all_run_and_block_dispatch (List Nat) true regXYZ
    [mutexXYZ] [str "prog", str "-x", str "-y"] []
    ⟨mutexXYZ, List.mem_cons_self mutexXYZ [], by decide⟩
  exact h.trans (by decide)

/-- C6: a single-dash token of grouped short aliases produces one ParsedArg
per alphabetic character, all sharing the token's position; a mid-token `=`
attaches the remaining suffix as the parameter of the most recently emitted
ParsedArg of that group only — earlier entries of the group, and any
entries accumulated from earlier tokens, keep their parameters. -/
theorem short_group_token :
    (∀ (cs : Str) (ts : List Str) (i : Nat) (args : List ParsedArg)
        (errs : List Error), cs ≠ [] → (∀ x ∈ cs, isAlphaChar x = true) →
        tokGo (('-' :: cs) :: ts) i args errs =
          tokGo ts (i + 1)
            (args ++ cs.map fun x => (i, ([x] : Str), none)) errs) ∧
    (∀ (front : Str) (c : Char) (suffix : Str) (ts : List Str) (i : Nat)
        (args : List ParsedArg) (errs : List Error),
        (∀ x ∈ front, isAlphaChar x = true) → isAlphaChar c = true →
        tokGo (('-' :: (front ++ c :: '=' :: suffix)) :: ts) i args errs =
          tokGo ts (i + 1)
            (args ++ (front.map fun x => (i, ([x] : Str), none)) ++
              [(i, [c], some suffix)]) errs) := by
  constructor
  · intro cs ts i args errs hne hall
    obtain ⟨x, xs, rfl⟩ := List.exists_cons_of_ne_nil hne
    have hx : isAlphaChar x = true := hall x (List.mem_cons_self x xs)
    have hxd : x ≠ '-' := isAlphaChar_ne_dash hx
    have h1 : ('-' :: x :: xs) ≠ ['-', '-'] := by simp [hxd]
    have h2 : ¬(('-' :: x :: xs).take 1 ≠ ['-'] ∧ args = [] ∧ i = 1) := by
      simp
    rw [tokGo_cons_step _ _ _ _ _ h1 h2,
      stepTok_short (x :: xs) i args errs (by simp)
        (fun y hy => by
          have hxy : x = y := Option.some.inj hy
          rwa [← hxy]),
      shortGo_all_alpha (x :: xs) i args errs hall]
  · intro front c suffix ts i args errs hall hc
    have hne : front ++ c :: '=' :: suffix ≠ [] := by simp
    have hlen : 2 ≤ (front ++ c :: '=' :: suffix).length := by
      simp [List.length_append]
      omega
    have h1 : ('-' :: (front ++ c :: '=' :: suffix)) ≠ ['-', '-'] := by
      intro he
      have hle := congrArg List.length he
      simp at hle
      omega
    have h2 : ¬(('-' :: (front ++ c :: '=' :: suffix)).take 1 ≠ ['-'] ∧
        args = [] ∧ i = 1) := by simp
    have hhead : ∀ x, (front ++ c :: '=' :: suffix).head? = some x →
        isAlphaChar x = true := by
      rcases front with _ | ⟨f0, fr⟩
      · intro x hx
        have : c = x := Option.some.inj hx
        rwa [← this]
      · intro x hx
        have : f0 = x := Option.some.inj hx
        rw [← this]
        exact hall f0 (List.mem_cons_self f0 fr)
    rw [tokGo_cons_step _ _ _ _ _ h1 h2,
      stepTok_short _ i args errs hne hhead,
      shortGo_alpha_then_eq front c suffix i args errs hall hc]

/-- C6, witness: the token "-abc=value" yields three ParsedArg entries for
a, b, c at position 1, with the parameter "value" attached only to c. -/
theorem short_group_token_witness :
    tokenize [str "p", str "-abc=value"] =
      ([(1, str "a", none), (1, str "b", none),
        (1, str "c", some (str "value"))], [], []) ∧
    tokGo (('-' :: (str "ab" ++ 'c' :: '=' :: str "value")) :: []) 1 [] [] =
      tokGo [] 2
        (([] : List ParsedArg) ++
          ((str "ab").map fun x => (1, ([x] : Str), none)) ++
          [(1, ['c'], some (str "value"))]) [] :=
  ⟨by decide,
    short_group_token.2 (str "ab") 'c' (str "value") [] 1 [] []
      (by decide) (by decide)⟩

/-- C7: when the scan reaches a bare "--" token (the token list before it
contains no "--" and, unless empty, starts with a dash so the bare-token
break cannot fire), tokenization stops at it: the ParsedArg records are
exactly those of the prefix, and the positional list is the terminator
followed verbatim by every remaining token, whatever its shape. -/
theorem terminator_makes_rest_positional :
    ∀ (prog : Str) (pre rest : List Str),
      ¬ (['-', '-'] ∈ pre) →
      (∀ t0, pre.head? = some t0 → t0.take 1 = ['-']) →
      tokenize (prog :: pre ++ ['-', '-'] :: rest) =
        ((tokenize (prog :: pre)).1, ['-', '-'] :: rest,
          (tokenize (prog :: pre)).2.2) := by
  intro prog pre rest hmem hhead
  show tokGo (pre ++ ['-', '-'] :: rest) 1 [] [] =
    ((tokGo pre 1 [] []).1, ['-', '-'] :: rest, (tokGo pre 1 [] []).2.2)
  rcases pre with _ | ⟨t0, pre'⟩
  · rfl
  · have ht0 : t0.take 1 = ['-'] := hhead t0 rfl
    have h1 : t0 ≠ ['-', '-'] :=
      fun he => hmem (he ▸ List.mem_cons_self t0 pre')
    have h2 : ¬(t0.take 1 ≠ ['-'] ∧ ([] : List ParsedArg) = [] ∧
        (1 : Nat) = 1) := by
      rintro ⟨hh, _, _⟩
      exact hh ht0
    rw [List.cons_append,
      tokGo_cons_step t0 (pre' ++ ['-', '-'] :: rest) 1 [] [] h1 h2,
      tokGo_cons_step t0 pre' 1 [] [] h1 h2]
    exact (tokGo_append_terminator pre' rest 2 _ _
      (fun hm => hmem (List.mem_cons_of_mem t0 hm)) (by omega)).1

/-- C7, witness: "-a -- first -second --third=true": scanning stops at
"--"; "first", "-second" and "--third=true" are positional verbatim and
produce no ParsedArg. -/
theorem terminator_makes_rest_positional_witness :
    tokenize [str "p", str "-a", str "--", str "first", str "-second",
        str "--third=true"] =
      ((tokenize [str "p", str "-a"]).1,
        [str "--", str "first", str "-second", str "--third=true"],
        (tokenize [str "p", str "-a"]).2.2) ∧
    tokenize [str "p", str "-a", str "--", str "first", str "-second",
        str "--third=true"] =
      ([(1, str "a", none)],
        [str "--", str "first", str "-second", str "--third=true"], []) := by
  constructor
  · exact terminator_makes_rest_positional (str "p") [str "-a"]
      [str "first", str "-second", str "--third=true"] (by decide)
      (fun t0 ht => by
        have : str "-a" = t0 := Option.some.inj ht
        rw [← this]
        decide)
  · decide

/-- C8: at dispatch the optional parameter is adapted to the matched
option's arity.  Arity None: a present parameter yields UnexpectedParameter
and halts dispatch (the rest of the ParsedArg list is not processed and the
storage is untouched), an absent one invokes the action with no argument.
Arity Required: an absent parameter yields ExpectedParameter and halts, a
present one invokes the action on the parameter string.  Arity Optional:
the action is invoked with the parameter exactly as given.  In every case a
non-None action result is reported and halts dispatch. -/
theorem dispatch_adapts_parameter_to_arity :
    ∀ (σ : Type) (halt : Bool) (reg : Registry σ) (rest : List ParsedArg)
      (i ai : Nat) (al als ht : Str) (u : σ) (lg : List Error),
      lookupA reg.aliasMap al = some ai →
      ((∀ act : σ → σ × Error,
          reg.options.getD ai (nullOpt σ) =
              ⟨als, mkNoParamAction (some act), ht⟩ →
          (∀ pv : Str,
            dispatchGo halt reg ((i, al, some pv) :: rest) ⟨u, lg, false⟩ =
              ⟨u, lg ++ [Error.UnexpectedParameter], true⟩) ∧
          dispatchGo halt reg ((i, al, none) :: rest) ⟨u, lg, false⟩ =
            (if (act u).2 = Error.None then
               dispatchGo halt reg rest ⟨(act u).1, lg, false⟩
             else ⟨(act u).1, lg ++ [(act u).2], true⟩)) ∧
       (∀ act : Str → σ → σ × Error,
          reg.options.getD ai (nullOpt σ) =
              ⟨als, mkRequiredParamAction (some act), ht⟩ →
          (dispatchGo halt reg ((i, al, none) :: rest) ⟨u, lg, false⟩ =
            ⟨u, lg ++ [Error.ExpectedParameter], true⟩) ∧
          (∀ pv : Str,
            dispatchGo halt reg ((i, al, some pv) :: rest) ⟨u, lg, false⟩ =
              (if (act pv u).2 = Error.None then
                 dispatchGo halt reg rest ⟨(act pv u).1, lg, false⟩
               else ⟨(act pv u).1, lg ++ [(act pv u).2], true⟩))) ∧
       (∀ (act : Option Str → σ → σ × Error) (p : Option Str),
          reg.options.getD ai (nullOpt σ) =
              ⟨als, mkOptionalParamAction (some act), ht⟩ →
          dispatchGo halt reg ((i, al, p) :: rest) ⟨u, lg, false⟩ =
            (if (act p u).2 = Error.None then
               dispatchGo halt reg rest ⟨(act p u).1, lg, false⟩
             else ⟨(act p u).1, lg ++ [(act p u).2], true⟩))) := by
  intro σ halt reg rest i ai al als ht u lg hl
  refine ⟨?_, ?_, ?_⟩
  · intro act hopt
    constructor
    · intro pv
      rw [dispatchGo_cons_active]
      simp only [hl, hopt, mkNoParamAction, Option.map]
      rw [if_neg (by decide), dispatchGo_frozen]
    · rw [dispatchGo_cons_active]
      simp only [hl, hopt, mkNoParamAction, Option.map]
      by_cases hr : (act u).2 = Error.None
      · rw [if_pos hr, if_pos hr]
      · rw [if_neg hr, if_neg hr, dispatchGo_frozen]
  · intro act hopt
    constructor
    · rw [dispatchGo_cons_active]
      simp only [hl, hopt, mkRequiredParamAction, Option.map]
      rw [if_neg (by decide), dispatchGo_frozen]
    · intro pv
      rw [dispatchGo_cons_active]
      simp only [hl, hopt, mkRequiredParamAction, Option.map]
      by_cases hr : (act pv u).2 = Error.None
      · rw [if_pos hr, if_pos hr]
      · rw [if_neg hr, if_neg hr, dispatchGo_frozen]
  · intro act p hopt
    rw [dispatchGo_cons_active]
    simp only [hl, hopt, mkOptionalParamAction]
    by_cases hr : (act p u).2 = Error.None
    · rw [if_pos hr, if_pos hr]
    · rw [if_neg hr, if_neg hr, dispatchGo_frozen]

/-- C8, witness: an arity-None option "n" receiving "--n=5" yields
UnexpectedParameter, its action does not run (the flag stays false) and the
following ParsedArg is not dispatched. -/
theorem dispatch_adapts_parameter_to_arity_witness :
    dispatchGo true regN [(1, str "n", some (str "5")), (2, str "n", none)]
        ⟨false, [], false⟩ =
      ⟨false, [Error.UnexpectedParameter], true⟩ := by
  have h := ((dispatch_adapts_parameter_to_arity Bool true regN
      [(2, str "n", none)] 1 0 (str "n") (str "n") [] false []
      (by decide)).1 (fun _ => (true, Error.None)) rfl).1 (str "5")
  exact h.trans (by decide)

/-- C9, counterexample: even with a purely recording, never-halting error
reporter, a parse call with two unrecognised aliases reports only the first
one: the dispatcher invokes the halt itself after any dispatch error, so
multi-error collection does not extend across the dispatch phase. -/
theorem dispatch_second_unrecognised_not_reported_cex :
    (ParseArgs false regXYZ [] [str "prog", str "-q", str "-r"]
        ([] : List Nat)).1.log = [Error.UnrecognisedAlias] ∧
    ((ParseArgs false regXYZ [] [str "prog", str "-q", str "-r"]
        ([] : List Nat)).1.log).length = 1 := by
  decide

/-- C9, amended: the fail-fast policy is overridable only outside the
dispatch phase: whatever the reporter's halt policy, one parse call's log
always contains every tokenization error followed by every rule report, and
the dispatch phase appends at most one further error — after the first
dispatch-time error the dispatcher halts itself regardless of the
reporter. -/
theorem dispatch_reports_at_most_one_error :
    (∀ (σ : Type) (halt : Bool) (reg : Registry σ) (l : List ParsedArg)
        (st : PState σ),
        ∃ d, (dispatchGo halt reg l st).log = st.log ++ d ∧ d.length ≤ 1) ∧
    (∀ (σ : Type) (halt : Bool) (reg : Registry σ) (rules : List Rule)
        (argv : List Str) (u : σ),
        ∃ d, (ParseArgs halt reg rules argv u).1.log =
            (tokenize argv).2.2 ++
              (rules.map fun r => (r (tokenize argv).1).2).flatten ++ d ∧
          d.length ≤ 1) := by
  constructor
  · intro σ halt reg l st
    exact dispatchGo_log_extension halt reg l st
  · intro σ halt reg rules argv u
    set st1 := ((tokenize argv).2.2).foldl (fun s e => report halt e s)
      (⟨u, [], false⟩ : PState σ) with hst1
    have hf := foldl_report_fields (σ := σ) halt (tokenize argv).2.2
      ⟨u, [], false⟩
    have ha := applyRules_fields halt (tokenize argv).1 rules st1
    have hl : (applyRules halt (tokenize argv).1 rules st1).log =
        (tokenize argv).2.2 ++
          (rules.map fun r => (r (tokenize argv).1).2).flatten := by
      rw [ha.2.1, hf.2.1]
      simp
    obtain ⟨d, hd, hlen⟩ := dispatchGo_log_extension halt reg
      (tokenize argv).1 (applyRules halt (tokenize argv).1 rules st1)
    refine ⟨d, ?_, hlen⟩
    show (dispatchGo halt reg (tokenize argv).1
        (applyRules halt (tokenize argv).1 rules st1)).log = _
    rw [hd, hl]

/-- C10: with the default parameter parsers a failed conversion leaves the
bound target unchanged — for the generic stream-extraction parser over any
target type, for the bool and string specialisations, and through the
SetValue, SetValue-with-default and SetOptionalValue helper actions for any
parser with that no-write-on-error property. -/
theorem default_parsers_preserve_target_on_error :
    (∀ (T : Type) (extract : Str → Option T) (s : Str) (v : T),
        (GetDefaultParser extract s v).2 ≠ Error.None →
        (GetDefaultParser extract s v).1 = v) ∧
    (∀ (s : Str) (v : Bool),
        (GetDefaultBoolParser s v).2 ≠ Error.None →
        (GetDefaultBoolParser s v).1 = v) ∧
    (∀ (s : Str) (v : Str), (GetDefaultStringParser s v).2 = Error.None) ∧
    (∀ (T : Type) (parser : Str → T → T × Error),
        (∀ s v, (parser s v).2 ≠ Error.None → (parser s v).1 = v) →
        (∀ (s : Str) (v : T),
            (SetValue parser s v).2 ≠ Error.None →
            (SetValue parser s v).1 = v) ∧
        (∀ (d : T) (p : Option Str) (v : T),
            (SetValueWithDefault d parser p v).2 ≠ Error.None →
            (SetValueWithDefault d parser p v).1 = v) ∧
        (∀ (tempInit : T) (p : Option Str) (v : Option T),
            (SetOptionalValue tempInit parser p v).2 ≠ Error.None →
            (SetOptionalValue tempInit parser p v).1 = v)) := by
  refine ⟨?_, ?_, ?_, ?_⟩
  · intro T extract s v h
    rcases hx : extract s with _ | t
    · simp [GetDefaultParser, hx]
    · exact absurd (by simp [GetDefaultParser, hx]) h
  · intro s v h
    by_cases h1 : (s.map toLowerChar) = str "true" ∨
        (s.map toLowerChar) = str "y" ∨ (s.map toLowerChar) = str "yes"
    · exact absurd (by simp [GetDefaultBoolParser, h1]) h
    · by_cases h2 : (s.map toLowerChar) = str "false" ∨
          (s.map toLowerChar) = str "n" ∨ (s.map toLowerChar) = str "no"
      · exact absurd (by simp [GetDefaultBoolParser, h1, h2]) h
      · simp [GetDefaultBoolParser, h1, h2]
  · intro s v
    rfl
  · intro T parser hp
    refine ⟨?_, ?_, ?_⟩
    · exact fun s v h => hp s v h
    · intro d p v h
      rcases p with _ | s
      · exact absurd rfl h
      · exact hp s v h
    · intro tempInit p v h
      rcases p with _ | s
      · exact absurd rfl h
      · by_cases hr : (parser s tempInit).2 = Error.None
        · exact absurd (by simp [SetOptionalValue, hr]) h
        · simp [SetOptionalValue, hr]

/-- C10, witness: the default bool parser fails on "vgsjd" and, through
SetValue, the bound target keeps its previous value. -/
theorem default_parsers_preserve_target_on_error_witness :
    (SetValue GetDefaultBoolParser (str "vgsjd") true).2 =
      Error.ParameterParseError ∧
    (SetValue GetDefaultBoolParser (str "vgsjd") true).1 = true := by
  refine ⟨by decide, ?_⟩
  exact (default_parsers_preserve_target_on_error.2.2.2 Bool
      GetDefaultBoolParser
      default_parsers_preserve_target_on_error.2.1).1
    (str "vgsjd") true (by decide)

end EzArgs
